import Mathlib

/-!
Verification of `list_check.py`: a batch auditor that fetches HubSpot list
definitions, recursively scans each list's filter tree for `PROPERTY`-type
leaf conditions naming target properties, and writes one CSV row per list.

The Python source is embedded shallowly: JSON documents become inductive
structures (a missing key becomes `Option.none`, `dict.get(k, d)` becomes
`Option.getD`), the mutable accumulator set threaded through the recursive
traversal becomes the returned contribution of each call (unioned), and the
global rate-limiter state becomes explicit state passing.
-/

namespace ListCheck

/-- One filter object inside a branch's `"filters"` array.  The Python code
reads `f.get("filterType")` (no default, so `none` models a missing key) and
`f.get("property", "")` (default `""`, modelled by `Option.getD ""`). -/
structure LeafFilter where
  filterType : Option String
  property : Option String
deriving DecidableEq, Repr

mutual

/-- A filter-branch node of the JSON tree under `list.filterBranch`.
`nullBranch` models a value that is falsy in Python (`None` or the empty
dict `{}`), which `traverse_filter_branches` rejects with `if not branch`.
A non-null node carries its `"filters"` array and its `"filterBranches"`
array (the latter encoded as the mutually inductive `BranchList`). -/
inductive FilterBranch : Type where
  | nullBranch : FilterBranch
  | node : List LeafFilter → BranchList → FilterBranch
deriving DecidableEq, Repr

/-- Model of the `"filterBranches"` array of a node: a list of sub-branches, encoded
mutually with `FilterBranch` so that structural recursion and induction over
the tree are available. -/
inductive BranchList : Type where
  | nil : BranchList
  | cons : FilterBranch → BranchList → BranchList
deriving DecidableEq, Repr

end

/-- Model of the inner `for f in filters` loop of `traverse_filter_branches`
(src/list_check.py lines 108-113): for each filter with
`filterType == "PROPERTY"` whose `property` (defaulted to `""`) is in
`properties_to_check`, add that property name to the accumulated set. -/
def leafMatches (filters : List LeafFilter) (props : Finset String) :
    Finset String :=
  filters.foldl
    (fun acc f =>
      if f.filterType = some "PROPERTY" ∧ f.property.getD "" ∈ props then
        insert (f.property.getD "") acc
      else acc) ∅

mutual

/-- Embedding of `traverse_filter_branches` (src/list_check.py lines 100-117).  The
Python version mutates a shared `found_props` set; since the traversal only
ever adds elements, it is modelled by returning each call's contribution and
taking unions.  `if not branch: return` is the `nullBranch` case. -/
def traverse_filter_branches (branch : FilterBranch) (props : Finset String) :
    Finset String :=
  match branch with
  | .nullBranch => ∅
  | .node filters subs =>
      leafMatches filters props ∪ traverseBranchList subs props

/-- Model of the `for sub in branch.get("filterBranches", [])` loop of
`traverse_filter_branches`: recurse into every sub-branch. -/
def traverseBranchList (l : BranchList) (props : Finset String) :
    Finset String :=
  match l with
  | .nil => ∅
  | .cons b rest => traverse_filter_branches b props ∪ traverseBranchList rest props

end

/-- The object stored under the `"list"` key of a response document; only
its `"filterBranch"` key matters.  A missing key is `none`; the Python
default `{}` is falsy, hence `Option.getD .nullBranch` below. -/
structure ListObj where
  filterBranch : Option FilterBranch
deriving DecidableEq, Repr

/-- The JSON document returned by the API for one list. -/
structure ResponseJson where
  list : Option ListObj
deriving DecidableEq, Repr

/-- The branch that `check_list_properties` hands to the traversal:
`response_json.get("list", {}).get("filterBranch", {})`, where either
missing key yields a falsy value, modelled as `nullBranch`. -/
def topBranch (resp : ResponseJson) : FilterBranch :=
  ((resp.list.getD ⟨none⟩).filterBranch).getD .nullBranch

/-- Embedding of `check_list_properties` (src/list_check.py lines 119-128): traverse the
branch under `response_json["list"]["filterBranch"]` and return the set of
target properties found. -/
def check_list_properties (resp : ResponseJson) (props : Finset String) :
    Finset String :=
  traverse_filter_branches (topBranch resp) props

mutual

/-- Holds (`true`) iff some leaf filter anywhere in the branch (at any nesting depth
of `filterBranches`) satisfies the predicate `q`. -/
def anyLeaf (q : LeafFilter → Bool) (b : FilterBranch) : Bool :=
  match b with
  | .nullBranch => false
  | .node filters subs => filters.any q || anyLeafList q subs

/-- Evaluation of `anyLeaf` over a list of sub-branches. -/
def anyLeafList (q : LeafFilter → Bool) (l : BranchList) : Bool :=
  match l with
  | .nil => false
  | .cons b rest => anyLeaf q b || anyLeafList q rest

end

/-- A leaf filter is a `PROPERTY`-type condition whose `property` key is
present with value `p`. -/
def Matches (p : String) (f : LeafFilter) : Prop :=
  f.filterType = some "PROPERTY" ∧ f.property = some p

instance (p : String) (f : LeafFilter) : Decidable (Matches p f) := by
  unfold Matches
  infer_instance

/-- A leaf filter is a `PROPERTY`-type condition whose (Python-defaulted)
property value `f.get("property", "")` equals `p`. -/
def MatchesD (p : String) (f : LeafFilter) : Prop :=
  f.filterType = some "PROPERTY" ∧ f.property.getD "" = p

instance (p : String) (f : LeafFilter) : Decidable (MatchesD p f) := by
  unfold MatchesD
  infer_instance

/-- The property name `p` occurs as the `property` of a leaf condition with
`filterType = "PROPERTY"` somewhere in the branch. -/
def hasPropertyLeaf (p : String) (b : FilterBranch) : Bool :=
  anyLeaf (fun f => decide (Matches p f)) b

/-- Like `hasPropertyLeaf` but comparing against the Python-defaulted
property value `f.get("property", "")`. -/
def hasPropertyLeafD (p : String) (b : FilterBranch) : Bool :=
  anyLeaf (fun f => decide (MatchesD p f)) b

theorem mem_leafMatches_foldl (fs : List LeafFilter) (props : Finset String)
    (acc : Finset String) (p : String) :
    p ∈ fs.foldl
        (fun acc f =>
          if f.filterType = some "PROPERTY" ∧ f.property.getD "" ∈ props then
            insert (f.property.getD "") acc
          else acc) acc ↔
      p ∈ acc ∨ (p ∈ props ∧ ∃ f ∈ fs, MatchesD p f) := by
  induction fs generalizing acc with
  | nil => simp
  | cons f rest ih =>
      simp only [List.foldl_cons, ih, List.mem_cons, exists_eq_or_imp]
      by_cases hft : f.filterType = some "PROPERTY" ∧ f.property.getD "" ∈ props
      · rw [if_pos hft]
        simp only [Finset.mem_insert]
        constructor
        · rintro ((heq | hacc) | ⟨hp, hr⟩)
          · exact Or.inr ⟨heq ▸ hft.2, Or.inl ⟨hft.1, heq.symm⟩⟩
          · exact Or.inl hacc
          · exact Or.inr ⟨hp, Or.inr hr⟩
        · rintro (hacc | ⟨hp, ⟨_, heq⟩ | hr⟩)
          · exact Or.inl (Or.inr hacc)
          · exact Or.inl (Or.inl heq.symm)
          · exact Or.inr ⟨hp, hr⟩
      · rw [if_neg hft]
        constructor
        · rintro (hacc | ⟨hp, hr⟩)
          · exact Or.inl hacc
          · exact Or.inr ⟨hp, Or.inr hr⟩
        · rintro (hacc | ⟨hp, ⟨h1, h2⟩ | hr⟩)
          · exact Or.inl hacc
          · exact absurd ⟨h1, h2 ▸ hp⟩ hft
          · exact Or.inr ⟨hp, hr⟩

theorem mem_leafMatches (fs : List LeafFilter) (props : Finset String)
    (p : String) :
    p ∈ leafMatches fs props ↔
      p ∈ props ∧ ∃ f ∈ fs, MatchesD p f := by
  simpa using mem_leafMatches_foldl fs props ∅ p

/-- Membership characterisation of the traversal: a name is collected iff it
is a target property and some `PROPERTY` leaf carries it (with the Python
default `""` for a missing `property` key). -/
theorem mem_traverse_filter_branches (props : Finset String) (p : String)
    (b : FilterBranch) :
    p ∈ traverse_filter_branches b props ↔
      p ∈ props ∧ hasPropertyLeafD p b = true := by
  refine @FilterBranch.rec
    (fun b => p ∈ traverse_filter_branches b props ↔
      p ∈ props ∧ hasPropertyLeafD p b = true)
    (fun l => p ∈ traverseBranchList l props ↔
      p ∈ props ∧
        anyLeafList (fun f => decide (MatchesD p f)) l = true)
    ?_ ?_ ?_ ?_ b
  · simp [traverse_filter_branches, hasPropertyLeafD, anyLeaf]
  · intro fs subs ih
    simp only [traverse_filter_branches, hasPropertyLeafD, anyLeaf,
      Finset.mem_union, mem_leafMatches, ih, Bool.or_eq_true,
      List.any_eq_true, decide_eq_true_eq]
    exact and_or_left.symm
  · simp [traverseBranchList, anyLeafList]
  · intro bb l ihb ihl
    simp only [traverseBranchList, anyLeafList, Finset.mem_union, ihb, ihl,
      Bool.or_eq_true, hasPropertyLeafD]
    exact and_or_left.symm

/-- For a non-empty property name, matching against the defaulted value
`f.get("property", "")` coincides with the `property` key being present with
exactly that value. -/
theorem matchesD_iff_matches (p : String) (hp : p ≠ "") (f : LeafFilter) :
    MatchesD p f ↔ Matches p f := by
  unfold MatchesD Matches
  cases hprop : f.property with
  | none =>
      simp only [hprop, Option.getD_none]
      constructor
      · rintro ⟨h1, h2⟩
        exact absurd h2.symm hp
      · rintro ⟨h1, h2⟩
        exact absurd h2 (by simp)
  | some q =>
      simp [hprop]

theorem hasPropertyLeafD_eq (p : String) (hp : p ≠ "") (b : FilterBranch) :
    hasPropertyLeafD p b = hasPropertyLeaf p b := by
  unfold hasPropertyLeafD hasPropertyLeaf
  have hfun : (fun f => decide (MatchesD p f)) = fun f => decide (Matches p f) := by
    funext f
    exact decide_eq_decide.mpr (matchesD_iff_matches p hp f)
  rw [hfun]

/-- One input row of `lists_to_check.csv`, as loaded by `load_list_ids`. -/
structure Item where
  name : String
  listId : String
deriving DecidableEq, Repr

/-- The outcome of the `requests.get` call in `check_single_list`: either a
response (with its HTTP status code, parsed JSON document and body text), or
a raised `requests.RequestException` carrying a message.  The HTTP transport
is a black box; this type is its interface as consumed by the code. -/
inductive FetchOutcome where
  | response (status : Nat) (doc : ResponseJson) (text : String)
  | exception (msg : String)
deriving DecidableEq, Repr

/-- Predicate `requests.Response.ok`: true iff the status code is below 400. -/
def respOk (status : Nat) : Bool := status < 400

/-- One row appended to `log_file.csv` by `log_error` (src/list_check.py
lines 86-95), minus the wall-clock timestamp column, which is not modelled
(it does not affect any claim). -/
structure LogRow where
  listName : String
  listId : String
  statusCode : Nat
  errorMessage : String
deriving DecidableEq, Repr

/-- The value returned by `check_single_list`, plus the `log_error` rows it
appended while running. -/
structure WorkResult where
  listName : String
  listId : String
  rowValues : List String
  errMsg : Option String
  logRows : List LogRow
deriving DecidableEq, Repr

/-- Embedding of `check_single_list` (src/list_check.py lines 133-175) with the rate
limiter and HTTP call abstracted into the supplied `outcome`:
on an ok response, build `"TRUE"`/`""` cells from the matched set; on a
non-ok response, log `"API error: " ++ text` with the response status and
return all-`"ERROR"` cells; on a request exception, log its message with
status 0 and return all-`"ERROR"` cells. -/
def check_single_list (item : Item) (property_list : List String)
    (property_set : Finset String) (outcome : FetchOutcome) : WorkResult :=
  match outcome with
  | .response status doc text =>
      if respOk status then
        let found := check_list_properties doc property_set
        { listName := item.name, listId := item.listId
          rowValues := property_list.map fun p => if p ∈ found then "TRUE" else ""
          errMsg := none, logRows := [] }
      else
        let errorMsg := "API error: " ++ text
        { listName := item.name, listId := item.listId
          rowValues := List.replicate property_list.length "ERROR"
          errMsg := some errorMsg
          logRows := [⟨item.name, item.listId, status, errorMsg⟩] }
  | .exception msg =>
      { listName := item.name, listId := item.listId
        rowValues := List.replicate property_list.length "ERROR"
        errMsg := some msg
        logRows := [⟨item.name, item.listId, 0, msg⟩] }

/-- The row `main` writes to `checked_lists.csv` for one completed work
item: `writer.writerow([list_name, list_id] + row_values)`
(src/list_check.py line 214). -/
def outputRow (w : WorkResult) : List String :=
  [w.listName, w.listId] ++ w.rowValues

/-- Python's `str.strip()`: remove leading and trailing whitespace.
Defined over the character list so that it evaluates by kernel reduction. -/
def pyStrip (s : String) : String :=
  ⟨((s.data.dropWhile Char.isWhitespace).reverse.dropWhile
      Char.isWhitespace).reverse⟩

/-- Embedding of `load_properties` (src/list_check.py lines 66-79): strip each line,
skip lines that strip to empty, collect the rest into an ordered list and a
membership set. -/
def load_properties (lines : List String) : List String × Finset String :=
  lines.foldl
    (fun acc line =>
      let p := pyStrip line
      if p ≠ "" then (acc.1 ++ [p], insert p acc.2) else acc)
    ([], ∅)

theorem load_properties_foldl (lines : List String)
    (acc : List String × Finset String) :
    lines.foldl
        (fun acc line =>
          let p := pyStrip line
          if p ≠ "" then (acc.1 ++ [p], insert p acc.2) else acc) acc =
      (acc.1 ++ (lines.map pyStrip).filter (fun p => p ≠ ""),
        acc.2 ∪ ((lines.map pyStrip).filter (fun p => p ≠ "")).toFinset) := by
  induction lines generalizing acc with
  | nil => simp
  | cons line rest ih =>
      simp only [List.foldl_cons]
      by_cases h : pyStrip line = ""
      · rw [if_neg (fun hc => hc h), ih]
        simp [h]
      · rw [if_pos h, ih]
        simp [List.filter_cons, h, Finset.insert_union, Finset.union_insert]

/-- Closed form for `load_properties`: the ordered list keeps every
non-blank stripped line (duplicates included), and the set is exactly the
elements of that list. -/
theorem load_properties_eq (lines : List String) :
    load_properties lines =
      ((lines.map pyStrip).filter (fun p => p ≠ ""),
        ((lines.map pyStrip).filter (fun p => p ≠ "")).toFinset) := by
  unfold load_properties
  rw [load_properties_foldl]
  simp

/-- The set/filter characterisation of `check_list_properties`, for target
sets not containing the empty string (as produced by `load_properties`). -/
theorem check_list_properties_eq_filter (resp : ResponseJson)
    (props : Finset String) (hne : "" ∉ props) :
    check_list_properties resp props =
      props.filter (fun q => hasPropertyLeaf q (topBranch resp) = true) := by
  ext q
  simp only [check_list_properties, mem_traverse_filter_branches,
    Finset.mem_filter]
  constructor
  · rintro ⟨hq, hh⟩
    refine ⟨hq, ?_⟩
    rw [← hasPropertyLeafD_eq q (fun he => hne (he ▸ hq))]
    exact hh
  · rintro ⟨hq, hh⟩
    refine ⟨hq, ?_⟩
    rw [hasPropertyLeafD_eq q (fun he => hne (he ▸ hq))]
    exact hh

/-- C1: for every non-error object, a target field is marked FOUND
(`"TRUE"` cell) exactly when it occurs as the `property` of a leaf condition
with `filterType = "PROPERTY"` somewhere in the tree under
`response_json["list"]["filterBranch"]`; equivalently,
`check_list_properties` returns precisely the set of target fields appearing
as such leaves. -/
theorem c1_matcher_found_iff (resp : ResponseJson) (props : Finset String)
    (hne : "" ∉ props) :
    check_list_properties resp props =
        props.filter (fun q => hasPropertyLeaf q (topBranch resp) = true) ∧
      ∀ (item : Item) (pl : List String) (s : Nat) (text : String) (i : Nat),
        respOk s = true →
        (check_single_list item pl props (.response s resp text)).rowValues[i]? =
          (pl[i]?).map fun q =>
            if q ∈ props ∧ hasPropertyLeaf q (topBranch resp) = true
            then "TRUE" else "" := by
  have ha := check_list_properties_eq_filter resp props hne
  refine ⟨ha, ?_⟩
  intro item pl s text i hok
  have hiff : ∀ q, q ∈ check_list_properties resp props ↔
      (q ∈ props ∧ hasPropertyLeaf q (topBranch resp) = true) := by
    intro q
    rw [ha]
    simp [Finset.mem_filter]
  simp only [check_single_list, hok, if_true, List.getElem?_map]
  cases pl[i]? with
  | none => rfl
  | some q => simp [hiff q]

/-- Sample filter tree of spec scenario 1: an `email` `PROPERTY` leaf nested
two levels deep and no `phone` leaf. -/
def sampleTree : FilterBranch :=
  .node [] (.cons (.node [⟨some "PROPERTY", some "email"⟩] .nil) .nil)

/-- Response document carrying `sampleTree` under `list.filterBranch`. -/
def sampleResp : ResponseJson := ⟨some ⟨some sampleTree⟩⟩

theorem c1_matcher_found_iff_witness :
    check_list_properties sampleResp {"email", "phone"} = {"email"} := by
  have h := c1_matcher_found_iff sampleResp {"email", "phone"} (by decide)
  rw [h.1]
  decide

/-- C5 counterexample: the claim says duplicate lines are collapsed in the
ordered field sequence, but `load_properties` appends every non-blank line
to the list, so a duplicated line appears twice. -/
theorem c5_counterexample :
    (load_properties ["email", "email"]).1 = ["email", "email"] ∧
      ¬ (load_properties ["email", "email"]).1.Nodup := by
  constructor
  · decide
  · decide

/-- C5 amended: `load_properties` skips blank (whitespace-only) lines and
trims the rest; the ordered list keeps every non-blank line in input order,
duplicates included (only the derived set collapses duplicates), and the
derived set has exactly the elements of the list. -/
theorem c5_load_properties_amended (lines : List String) :
    (load_properties lines).1 =
        (lines.map pyStrip).filter (fun p => p ≠ "") ∧
      "" ∉ (load_properties lines).1 ∧
      (load_properties lines).2 = (load_properties lines).1.toFinset := by
  rw [load_properties_eq]
  refine ⟨rfl, ?_, rfl⟩
  intro hmem
  have := List.of_mem_filter hmem
  simp at this

/-- C6: the per-field results sequence has length exactly the catalogue's
length on every path (success, API error, exception), the full output row
has `2 + |catalogue|` entries, and on the success path cell `i` is the
FOUND/ABSENT marker for catalogue entry `i` (same order). -/
theorem c6_row_length_aligned (item : Item) (pl : List String)
    (props : Finset String) (outcome : FetchOutcome) :
    (check_single_list item pl props outcome).rowValues.length = pl.length ∧
      (outputRow (check_single_list item pl props outcome)).length =
        2 + pl.length ∧
      ∀ (s : Nat) (doc : ResponseJson) (text : String) (i : Nat),
        respOk s = true →
        (check_single_list item pl props (.response s doc text)).rowValues[i]? =
          (pl[i]?).map fun p =>
            if p ∈ check_list_properties doc props then "TRUE" else "" := by
  refine ⟨?_, ?_, ?_⟩
  · cases outcome with
    | response s doc text =>
        by_cases hok : respOk s = true
        · simp [check_single_list, hok]
        · simp [check_single_list, hok]
    | exception msg => simp [check_single_list]
  · cases outcome with
    | response s doc text =>
        by_cases hok : respOk s = true
        · simp [check_single_list, hok, outputRow]
          omega
        · simp [check_single_list, hok, outputRow]
          omega
    | exception msg =>
        simp [check_single_list, outputRow]
        omega
  · intro s doc text i hok
    simp [check_single_list, hok, List.getElem?_map]

theorem c6_row_length_aligned_witness :
    (check_single_list ⟨"A", "1"⟩ ["email", "phone"] {"email", "phone"}
        (.response 200 sampleResp "ok")).rowValues[0]? = some "TRUE" := by
  have h := (c6_row_length_aligned ⟨"A", "1"⟩ ["email", "phone"]
    {"email", "phone"} (.response 200 sampleResp "ok")).2.2 200 sampleResp
    "ok" 0 (by decide)
  rw [h]
  decide

/-- C7: every produced result row is either fully on the success path (each
cell `"TRUE"` or `""`) or uniformly `"ERROR"`; no row mixes the two. -/
theorem c7_no_mixed_rows (item : Item) (pl : List String)
    (props : Finset String) (outcome : FetchOutcome) :
    (∀ c ∈ (check_single_list item pl props outcome).rowValues,
        c = "TRUE" ∨ c = "") ∨
      (∀ c ∈ (check_single_list item pl props outcome).rowValues,
        c = "ERROR") := by
  cases outcome with
  | response s doc text =>
      by_cases hok : respOk s = true
      · left
        intro c hc
        simp only [check_single_list, hok, if_true, List.mem_map] at hc
        obtain ⟨p, _, hp⟩ := hc
        by_cases hmem : p ∈ check_list_properties doc props
        · left
          rw [← hp]
          simp [hmem]
        · right
          rw [← hp]
          simp [hmem]
      · right
        intro c hc
        simp only [check_single_list, hok, if_false, Bool.false_eq_true,
          List.mem_replicate] at hc
        exact hc.2
  | exception msg =>
      right
      intro c hc
      simp only [check_single_list, List.mem_replicate] at hc
      exact hc.2

/-- C8 counterexample: a 304 response is non-2xx, yet `resp.ok` (status
< 400) treats it as success: no error-log row is appended and the row is a
success-path row, not all-ERROR — contradicting the claim that every
non-2xx API response is recorded as a failure with its status code. -/
theorem c8_counterexample :
    ¬ (200 ≤ 304 ∧ 304 ≤ 299) ∧
      (check_single_list ⟨"A", "1"⟩ ["email"] ∅
          (.response 304 ⟨none⟩ "not modified")).logRows = [] ∧
      (check_single_list ⟨"A", "1"⟩ ["email"] ∅
          (.response 304 ⟨none⟩ "not modified")).rowValues = [""] := by
  refine ⟨by omega, ?_, ?_⟩ <;> decide

/-- C8 amended: a failure is recorded iff the fetch raises a request
exception or returns a response with `resp.ok` false, i.e. status ≥ 400
(3xx statuses count as success under `requests`' ok-predicate, not as
API failures); each failure yields exactly one log row — status code 0 with
the exception message for transport failures, the response's status with
`"API error: " ++ body` for HTTP failures — together with an all-ERROR row,
and ok responses append no log row. -/
theorem c8_error_logging_amended (item : Item) (pl : List String)
    (props : Finset String) (outcome : FetchOutcome) :
    (∀ (s : Nat) (doc : ResponseJson) (text : String),
        outcome = .response s doc text → respOk s = true →
        (check_single_list item pl props outcome).logRows = []) ∧
      (∀ (s : Nat) (doc : ResponseJson) (text : String),
        outcome = .response s doc text → respOk s = false →
        (check_single_list item pl props outcome).logRows =
            [⟨item.name, item.listId, s, "API error: " ++ text⟩] ∧
          ∀ c ∈ (check_single_list item pl props outcome).rowValues,
            c = "ERROR") ∧
      (∀ msg : String, outcome = .exception msg →
        (check_single_list item pl props outcome).logRows =
            [⟨item.name, item.listId, 0, msg⟩] ∧
          ∀ c ∈ (check_single_list item pl props outcome).rowValues,
            c = "ERROR") := by
  refine ⟨?_, ?_, ?_⟩
  · rintro s doc text rfl hok
    simp [check_single_list, hok]
  · rintro s doc text rfl hok
    constructor
    · simp [check_single_list, hok]
    · intro c hc
      simp only [check_single_list, hok, Bool.false_eq_true, if_false,
        List.mem_replicate] at hc
      exact hc.2
  · rintro msg rfl
    constructor
    · simp [check_single_list]
    · intro c hc
      simp only [check_single_list, List.mem_replicate] at hc
      exact hc.2

theorem c8_error_logging_amended_witness :
    (check_single_list ⟨"B", "2"⟩ ["email", "phone"] ∅
        (.response 404 ⟨none⟩ "not found")).logRows =
      [⟨"B", "2", 404, "API error: not found"⟩] := by
  exact ((c8_error_logging_amended ⟨"B", "2"⟩ ["email", "phone"] ∅
    (.response 404 ⟨none⟩ "not found")).2.1 404 ⟨none⟩ "not found" rfl
    (by decide)).1

/-- C9: if the filter-tree structure is missing or empty (no `"list"` key,
no `"filterBranch"` key, or a null/empty branch — all of which make
`topBranch` the null branch), the matcher returns the empty set, every field
cell is ABSENT (`""`), and no error is logged. -/
theorem c9_empty_tree_no_matches (resp : ResponseJson) (props : Finset String)
    (h : topBranch resp = .nullBranch) :
    check_list_properties resp props = ∅ ∧
      ∀ (item : Item) (pl : List String) (s : Nat) (text : String),
        respOk s = true →
        (check_single_list item pl props (.response s resp text)).rowValues =
            pl.map (fun _ => "") ∧
          (check_single_list item pl props (.response s resp text)).logRows =
            [] := by
  have hempty : check_list_properties resp props = ∅ := by
    unfold check_list_properties
    rw [h]
    rfl
  refine ⟨hempty, ?_⟩
  intro item pl s text hok
  constructor
  · simp [check_single_list, hok, hempty]
  · simp [check_single_list, hok]

theorem c9_empty_tree_no_matches_witness :
    check_list_properties ⟨some ⟨none⟩⟩ {"email", "phone"} = ∅ ∧
      (check_single_list ⟨"C", "3"⟩ ["email", "phone"] {"email", "phone"}
          (.response 200 ⟨some ⟨none⟩⟩ "")).rowValues = ["", ""] := by
  have h := c9_empty_tree_no_matches ⟨some ⟨none⟩⟩ {"email", "phone"} rfl
  exact ⟨h.1, ((h.2 ⟨"C", "3"⟩ ["email", "phone"] 200 "" (by decide)).1)⟩

/-- C10: the matched set is always a subset of the target set; on the
success path every cell is exactly `"TRUE"` or `""`; and (for catalogues
without the empty string, as `load_properties` produces) a `PROPERTY` leaf
whose `property` key is missing never contributes a match — every matched
name is carried by a leaf whose `property` key is present. -/
theorem c10_subset_of_targets (resp : ResponseJson) (props : Finset String) :
    check_list_properties resp props ⊆ props ∧
      (∀ (item : Item) (pl : List String) (s : Nat) (text : String),
        respOk s = true →
        ∀ c ∈ (check_single_list item pl props (.response s resp text)).rowValues,
          c = "TRUE" ∨ c = "") ∧
      ("" ∉ props →
        ∀ p ∈ check_list_properties resp props,
          hasPropertyLeaf p (topBranch resp) = true) := by
  refine ⟨?_, ?_, ?_⟩
  · intro p hp
    exact ((mem_traverse_filter_branches props p (topBranch resp)).mp hp).1
  · intro item pl s text hok c hc
    simp only [check_single_list, hok, if_true, List.mem_map] at hc
    obtain ⟨p, _, hp⟩ := hc
    by_cases hmem : p ∈ check_list_properties resp props
    · left
      rw [← hp]
      simp [hmem]
    · right
      rw [← hp]
      simp [hmem]
  · intro hne p hp
    have h := (mem_traverse_filter_branches props p (topBranch resp)).mp hp
    rw [← hasPropertyLeafD_eq p (fun he => hne (he ▸ h.1))]
    exact h.2

theorem c10_subset_of_targets_witness :
    check_list_properties sampleResp {"email"} ⊆ {"email"} ∧
      hasPropertyLeaf "email" (topBranch sampleResp) = true := by
  have h := c10_subset_of_targets sampleResp {"email"}
  refine ⟨h.1, h.2.2 (by decide) "email" ?_⟩
  decide

/-! ### Rate limiter

`wait_for_rate_slot` (src/list_check.py lines 28-46) guards a shared list
`request_timestamps` with a lock.  One iteration of its `while True` body is
modelled as a state transition: read the clock (`now`), pop timestamps older
than 10 seconds from the front, and either append `now` and succeed (fewer
than 100 timestamps remain) or leave the state and fail (the caller sleeps
and retries).  Because the critical section is serialised by the lock and
`time.time()` is monotone, the sequence of `now` values observed across all
workers is nondecreasing; a trace is that sorted list of attempt times. -/

/-- Model of the `while request_timestamps and (now - request_timestamps[0]) > 10:
request_timestamps.pop(0)` loop: drop the prefix of timestamps older than
10 seconds. -/
def evictOld (now : ℚ) (ts : List ℚ) : List ℚ :=
  ts.dropWhile fun t0 => decide (10 < now - t0)

/-- One locked iteration of `wait_for_rate_slot`: after eviction, append
`now` and succeed if fewer than 100 timestamps remain, else fail (the
Python caller then sleeps 0.1s and retries). -/
def wait_for_rate_slot (ts : List ℚ) (now : ℚ) : List ℚ × Bool :=
  if (evictOld now ts).length < 100 then (evictOld now ts ++ [now], true)
  else (evictOld now ts, false)

/-- Run a trace of acquire attempts against the shared timestamp list:
returns the final `request_timestamps` state and the times of the
successful acquires (the moments requests are admitted). -/
def runAttempts (ts : List ℚ) : List ℚ → List ℚ × List ℚ
  | [] => (ts, [])
  | a :: rest =>
      ((runAttempts (wait_for_rate_slot ts a).1 rest).1,
        (if (wait_for_rate_slot ts a).2 then [a] else []) ++
          (runAttempts (wait_for_rate_slot ts a).1 rest).2)

/-- Membership in the trailing window of length 10 ending at `t`. -/
def windowP (t : ℚ) (e : ℚ) : Bool :=
  decide (t - 10 ≤ e ∧ e ≤ t)

theorem sorted_append_iff (l₁ l₂ : List ℚ) :
    (l₁ ++ l₂).Sorted (· ≤ ·) ↔
      l₁.Sorted (· ≤ ·) ∧ l₂.Sorted (· ≤ ·) ∧ ∀ x ∈ l₁, ∀ y ∈ l₂, x ≤ y :=
  List.pairwise_append

theorem runAttempts_events_mem :
    ∀ (attempts ts : List ℚ), ∀ e ∈ (runAttempts ts attempts).2,
      e ∈ attempts := by
  intro attempts
  induction attempts with
  | nil =>
      intro ts e he
      simp [runAttempts] at he
  | cons a rest ih =>
      intro ts e he
      simp only [runAttempts, List.mem_append] at he
      rcases he with he | he
      · rcases hok : (wait_for_rate_slot ts a).2 with _ | _
        · rw [hok] at he
          simp at he
        · rw [hok] at he
          simp only [if_true, List.mem_singleton] at he
          exact he ▸ List.mem_cons_self a rest
      · exact List.mem_cons_of_mem a (ih _ e he)

theorem wait_for_rate_slot_length (ts : List ℚ) (a : ℚ)
    (h : ts.length ≤ 100) : (wait_for_rate_slot ts a).1.length ≤ 100 := by
  have hd : (evictOld a ts).length ≤ ts.length :=
    (List.dropWhile_sublist _).length_le
  by_cases hcap : (evictOld a ts).length < 100
  · simp only [wait_for_rate_slot, hcap, if_true, List.length_append,
      List.length_singleton]
    omega
  · simp only [wait_for_rate_slot, hcap, if_false]
    omega

/-- The state invariant: starting from an over-full-free state, the shared
timestamp list never exceeds 100 entries. -/
theorem runAttempts_state_length (attempts : List ℚ) :
    ∀ ts : List ℚ, ts.length ≤ 100 →
      (runAttempts ts attempts).1.length ≤ 100 := by
  induction attempts with
  | nil =>
      intro ts h
      simpa [runAttempts] using h
  | cons a rest ih =>
      intro ts h
      simp only [runAttempts]
      exact ih _ (wait_for_rate_slot_length ts a h)

theorem countP_evictOld_eq (t a : ℚ) (ts : List ℚ) (hat : a ≤ t) :
    ts.countP (windowP t) = (evictOld a ts).countP (windowP t) := by
  conv_lhs =>
    rw [← List.takeWhile_append_dropWhile
      (p := fun t0 => decide (10 < a - t0)) (l := ts)]
  rw [List.countP_append]
  have hzero :
      (ts.takeWhile fun t0 => decide (10 < a - t0)).countP (windowP t) = 0 := by
    rw [List.countP_eq_zero]
    intro x hx
    have hpx := List.mem_takeWhile_imp hx
    have hlt : 10 < a - x := by simpa using hpx
    simp only [windowP, decide_eq_true_eq, not_and]
    intro h1
    exfalso
    have : x < a - 10 := by linarith
    have : x < t - 10 := by linarith
    linarith
  rw [hzero]
  simp [evictOld]

/-- Window-bound invariant, by induction over the trace: the successful
acquire events in the trailing window ending at `t`, together with the
in-window timestamps already in the state, never exceed 100. -/
theorem window_bound_aux (t : ℚ) :
    ∀ (attempts ts : List ℚ),
      (ts ++ attempts).Sorted (· ≤ ·) → ts.length ≤ 100 →
      (runAttempts ts attempts).2.countP (windowP t) +
          ts.countP (windowP t) ≤ 100 := by
  intro attempts
  induction attempts with
  | nil =>
      intro ts _ hlen
      have := List.countP_le_length (p := windowP t) (l := ts)
      simp only [runAttempts, List.countP_nil]
      omega
  | cons a rest ih =>
      intro ts hsort hlen
      rw [sorted_append_iff] at hsort
      obtain ⟨hts, har, hcross⟩ := hsort
      rw [List.sorted_cons] at har
      obtain ⟨halerest, hrest⟩ := har
      have hsub : List.Sublist (evictOld a ts) ts := List.dropWhile_sublist _
      have hts2sorted : (evictOld a ts).Sorted (· ≤ ·) :=
        List.Pairwise.sublist hsub hts
      have hts2mem : ∀ x ∈ evictOld a ts, x ∈ ts := fun x hx => hsub.subset hx
      have hts2len : (evictOld a ts).length ≤ ts.length := hsub.length_le
      have hts2le_a : ∀ x ∈ evictOld a ts, x ≤ a := fun x hx =>
        hcross x (hts2mem x hx) a (List.mem_cons_self a rest)
      have hts2cross : ∀ x ∈ evictOld a ts, ∀ y ∈ rest, x ≤ y :=
        fun x hx y hy => hcross x (hts2mem x hx) y (List.mem_cons_of_mem a hy)
      have hts_le_len := List.countP_le_length (p := windowP t) (l := ts)
      have hrest_zero : t < a →
          (runAttempts (wait_for_rate_slot ts a).1 rest).2.countP
            (windowP t) = 0 := by
        intro hta
        rw [List.countP_eq_zero]
        intro e he
        have hmem := runAttempts_events_mem rest _ e he
        have hae : a ≤ e := halerest e hmem
        simp only [windowP, decide_eq_true_eq, not_and]
        intro _
        intro hle
        linarith
      by_cases hcap : (evictOld a ts).length < 100
      · have hstep1 : (wait_for_rate_slot ts a).1 = evictOld a ts ++ [a] := by
          simp [wait_for_rate_slot, hcap]
        have hstep2 : (wait_for_rate_slot ts a).2 = true := by
          simp [wait_for_rate_slot, hcap]
        have hsorted' : ((evictOld a ts ++ [a]) ++ rest).Sorted (· ≤ ·) := by
          rw [sorted_append_iff]
          refine ⟨?_, hrest, ?_⟩
          · rw [sorted_append_iff]
            refine ⟨hts2sorted, List.sorted_singleton a, ?_⟩
            intro x hx y hy
            rw [List.mem_singleton] at hy
            exact hy ▸ hts2le_a x hx
          · intro x hx y hy
            rw [List.mem_append] at hx
            rcases hx with hx | hx
            · exact hts2cross x hx y hy
            · rw [List.mem_singleton] at hx
              exact hx ▸ halerest y hy
        have hlen' : (evictOld a ts ++ [a]).length ≤ 100 := by
          rw [List.length_append, List.length_singleton]
          omega
        have hih := ih (evictOld a ts ++ [a]) hsorted' hlen'
        rw [List.countP_append] at hih
        simp only [runAttempts, hstep1, hstep2, if_true, List.countP_append]
        by_cases hat : a ≤ t
        · have hc := countP_evictOld_eq t a ts hat
          omega
        · push_neg at hat
          have hz := hrest_zero hat
          rw [hstep1] at hz
          have ha0 : ([a] : List ℚ).countP (windowP t) = 0 := by
            rw [List.countP_eq_zero]
            intro e he
            rw [List.mem_singleton] at he
            subst he
            simp only [windowP, decide_eq_true_eq, not_and]
            intro _
            intro hle
            linarith
          omega
      · have hstep1 : (wait_for_rate_slot ts a).1 = evictOld a ts := by
          simp [wait_for_rate_slot, hcap]
        have hstep2 : (wait_for_rate_slot ts a).2 = false := by
          simp [wait_for_rate_slot, hcap]
        have hsorted' : (evictOld a ts ++ rest).Sorted (· ≤ ·) := by
          rw [sorted_append_iff]
          exact ⟨hts2sorted, hrest, hts2cross⟩
        have hlen' : (evictOld a ts).length ≤ 100 := le_trans hts2len hlen
        have hih := ih (evictOld a ts) hsorted' hlen'
        simp only [runAttempts, hstep1, hstep2, Bool.false_eq_true, if_false,
          List.nil_append]
        by_cases hat : a ≤ t
        · have hc := countP_evictOld_eq t a ts hat
          omega
        · push_neg at hat
          have hz := hrest_zero hat
          rw [hstep1] at hz
          omega

/-- C3: for every monotone execution trace of `wait_for_rate_slot` (the
lock serialises the critical sections, so observed clock values are
nondecreasing, regardless of worker count), no trailing window of length 10
seconds contains more than 100 successful acquire events; and after any
prefix of the trace the `request_timestamps` state (which holds only
entries newer than `now - 10`) never exceeds 100 entries. -/
theorem c3_rate_window_bound (attempts : List ℚ)
    (hs : attempts.Sorted (· ≤ ·)) :
    (∀ t : ℚ,
        (runAttempts [] attempts).2.countP (windowP t) ≤ 100) ∧
      ∀ pre suf : List ℚ, attempts = pre ++ suf →
        (runAttempts [] pre).1.length ≤ 100 := by
  constructor
  · intro t
    have h := window_bound_aux t attempts []
      (by simpa using hs) (by simp)
    simpa using h
  · intro pre suf _
    exact runAttempts_state_length pre [] (by simp)

theorem c3_rate_window_bound_witness :
    ((0 : ℚ) ≤ 1 ∧ (1 : ℚ) ≤ 2) ∧
      (runAttempts [] [0, 1, 2]).2.countP (windowP 2) ≤ 100 := by
  have hs : ([0, 1, 2] : List ℚ).Sorted (· ≤ ·) := by
    norm_num [List.sorted_cons]
  exact ⟨⟨by norm_num, by norm_num⟩, (c3_rate_window_bound [0, 1, 2] hs).1 2⟩

/-! ### Result collection in `main`

`main` (src/list_check.py lines 202-216) submits one future per input item,
in input order, then writes one CSV row per future as
`concurrent.futures.as_completed` yields them — i.e. in completion order,
which is an arbitrary permutation of the submission order. -/

/-- The result rows in input (submission) order: row `i` is the output row
of item `i` processed with fetch outcome `i`. -/
def inputRows (items : List Item) (outcomes : List FetchOutcome)
    (pl : List String) (ps : Finset String) : List (List String) :=
  (items.zip outcomes).map fun x => outputRow (check_single_list x.1 pl ps x.2)

/-- The matrix rows as `main` writes them: `completionOrder` is the order in
which `as_completed` yields the futures (each exactly once — a permutation
of the submission indices); each yielded future's row is written
immediately. -/
def mainRows (items : List Item) (outcomes : List FetchOutcome)
    (pl : List String) (ps : Finset String) (completionOrder : List Nat) :
    List (List String) :=
  completionOrder.filterMap fun i =>
    match items[i]?, outcomes[i]? with
    | some it, some oc => some (outputRow (check_single_list it pl ps oc))
    | _, _ => none

theorem range_filterMap_getElem {α β : Type} (f : α → β) (l : List α) :
    (List.range l.length).filterMap (fun i => (l[i]?).map f) = l.map f := by
  induction l with
  | nil => simp
  | cons x xs ih =>
      rw [List.length_cons, List.range_succ_eq_map, List.filterMap_cons]
      simp only [List.getElem?_cons_zero, Option.map_some']
      rw [List.filterMap_map]
      have hcomp : ((fun i => ((x :: xs)[i]?).map f) ∘ Nat.succ) =
          fun i => (xs[i]?).map f := by
        funext i
        simp
      rw [hcomp, ih]
      rfl

/-- C2 counterexample: with two items and the second future completing
first — a legitimate completion order — the written rows are in the reverse
of the input order, so the output does not preserve input order. -/
theorem c2_counterexample :
    ([1, 0].Perm (List.range 2)) ∧
      mainRows [⟨"A", "1"⟩, ⟨"B", "2"⟩] [.exception "e", .exception "e"]
          [] ∅ [1, 0] ≠
        inputRows [⟨"A", "1"⟩, ⟨"B", "2"⟩] [.exception "e", .exception "e"]
          [] ∅ := by
  constructor
  · decide
  · decide

/-- C2 amended: the output matrix has exactly one row per input object — no
drops, no duplicates: it is a permutation of the input-order rows — but the
rows appear in completion order (`as_completed` order), which need not
preserve the input order of the object list; row identity is carried by the
Name/ListId columns. -/
theorem c2_one_row_per_item_amended (items : List Item)
    (outcomes : List FetchOutcome) (pl : List String) (ps : Finset String)
    (order : List Nat) (hlen : outcomes.length = items.length)
    (hperm : order.Perm (List.range items.length)) :
    (mainRows items outcomes pl ps order).Perm
      (inputRows items outcomes pl ps) := by
  have hg : (fun i : Nat =>
        match items[i]?, outcomes[i]? with
        | some it, some oc => some (outputRow (check_single_list it pl ps oc))
        | _, _ => none) =
      fun i : Nat => ((items.zip outcomes)[i]?).map
        (fun x : Item × FetchOutcome =>
          outputRow (check_single_list x.1 pl ps x.2)) := by
    funext i
    by_cases hi : i < items.length
    · have h1 : items[i]? = some items[i] := List.getElem?_eq_getElem hi
      have hi2 : i < outcomes.length := by omega
      have h2 : outcomes[i]? = some outcomes[i] :=
        List.getElem?_eq_getElem hi2
      have h3 : (items.zip outcomes)[i]? = some (items[i], outcomes[i]) := by
        have hiz : i < (items.zip outcomes).length := by
          rw [List.length_zip]
          omega
        rw [List.getElem?_eq_getElem hiz]
        simp [List.getElem_zip]
      rw [h1, h2, h3]
      rfl
    · have h1 : items[i]? = none := by
        rw [List.getElem?_eq_none_iff]
        omega
      have h3 : (items.zip outcomes)[i]? = none := by
        rw [List.getElem?_eq_none_iff, List.length_zip]
        omega
      rw [h1, h3]
      cases outcomes[i]? <;> rfl
  have hstep1 : mainRows items outcomes pl ps order =
      order.filterMap fun i : Nat => ((items.zip outcomes)[i]?).map
        (fun x : Item × FetchOutcome =>
          outputRow (check_single_list x.1 pl ps x.2)) := by
    unfold mainRows
    rw [hg]
  have hperm2 := hperm.filterMap fun i : Nat => ((items.zip outcomes)[i]?).map
    (fun x : Item × FetchOutcome => outputRow (check_single_list x.1 pl ps x.2))
  have hlen2 : items.length = (items.zip outcomes).length := by
    rw [List.length_zip]
    omega
  have hrange : List.range items.length =
      List.range (items.zip outcomes).length := by
    rw [hlen2]
  rw [hstep1]
  refine hperm2.trans ?_
  rw [hrange, range_filterMap_getElem]
  exact List.Perm.refl _

theorem c2_one_row_per_item_amended_witness :
    ([1, 0].Perm (List.range 2)) ∧
      (mainRows [⟨"A", "1"⟩, ⟨"B", "2"⟩] [.exception "e", .exception "e"]
          [] ∅ [1, 0]).Perm
        (inputRows [⟨"A", "1"⟩, ⟨"B", "2"⟩] [.exception "e", .exception "e"]
          [] ∅) := by
  refine ⟨by decide, ?_⟩
  exact c2_one_row_per_item_amended [⟨"A", "1"⟩, ⟨"B", "2"⟩]
    [.exception "e", .exception "e"] [] ∅ [1, 0] (by decide) (by decide)

/-! ### Termination of the tree traversal

`traverse_filter_branches` has no depth counter and no visited-node set.
On the inductive (finite, acyclic) `FilterBranch` it terminates — the
fuel-instrumented variant below succeeds once the fuel covers the tree
depth.  But Python dicts are heap references, so a malformed document can
reference itself; on the reference representation the same recursion
exhausts every stack budget instead of producing an error value. -/

mutual

/-- The traversal instrumented with a stack budget: `fuel`
bounds the depth of nested recursive calls (each tree level consumes one
frame; the sibling loop runs in the current frame), and `none` means the
budget was exceeded. -/
def traverseFuel (props : Finset String) (fuel : Nat) (b : FilterBranch) :
    Option (Finset String) :=
  match fuel, b with
  | 0, _ => none
  | _ + 1, .nullBranch => some ∅
  | fuel + 1, .node fs subs =>
      (traverseFuelList props fuel subs).map
        fun s => leafMatches fs props ∪ s
termination_by (fuel, sizeOf b)

/-- The sibling loop of `traverseFuel`. -/
def traverseFuelList (props : Finset String) (fuel : Nat) (l : BranchList) :
    Option (Finset String) :=
  match l with
  | .nil => some ∅
  | .cons b rest =>
      match traverseFuel props fuel b, traverseFuelList props fuel rest with
      | some s1, some s2 => some (s1 ∪ s2)
      | _, _ => none
termination_by (fuel, sizeOf l)

end

mutual

/-- Depth of a filter tree: nesting levels of branches. -/
def branchDepth : FilterBranch → Nat
  | .nullBranch => 1
  | .node _ subs => 1 + branchListDepth subs

/-- Maximal depth over a list of sub-branches. -/
def branchListDepth : BranchList → Nat
  | .nil => 0
  | .cons b rest => max (branchDepth b) (branchListDepth rest)

end

/-- C4 amended: on every well-formed (finite, acyclic) filter tree the
traversal terminates — any stack budget covering the tree depth suffices,
and the result agrees with the unbounded traversal.  (The code contains no
depth bound or revisit detection; `c4_counterexample` shows the cyclic
case diverges instead of yielding an ERROR row.) -/
theorem c4_traversal_terminates_amended (props : Finset String)
    (b : FilterBranch) (fuel : Nat) (h : branchDepth b ≤ fuel) :
    traverseFuel props fuel b = some (traverse_filter_branches b props) := by
  refine @FilterBranch.rec
    (fun b => ∀ fuel : Nat, branchDepth b ≤ fuel →
      traverseFuel props fuel b = some (traverse_filter_branches b props))
    (fun l => ∀ fuel : Nat, branchListDepth l ≤ fuel →
      traverseFuelList props fuel l = some (traverseBranchList l props))
    ?_ ?_ ?_ ?_ b fuel h
  · intro fuel h
    cases fuel with
    | zero => simp [branchDepth] at h
    | succ f => simp [traverseFuel, traverse_filter_branches]
  · intro fs subs ih fuel h
    cases fuel with
    | zero => simp [branchDepth] at h
    | succ f =>
        have hsub : branchListDepth subs ≤ f := by
          simp only [branchDepth] at h
          omega
        rw [traverseFuel, ih f hsub]
        simp [traverse_filter_branches]
  · intro fuel _
    simp [traverseFuelList, traverseBranchList]
  · intro bb rest ihb ihrest fuel h
    simp only [branchListDepth, max_le_iff] at h
    rw [traverseFuelList, ihb fuel h.1, ihrest fuel h.2]
    simp [traverseBranchList]

theorem c4_traversal_terminates_amended_witness :
    branchDepth sampleTree ≤ 3 ∧
      traverseFuel {"email"} 3 sampleTree =
        some (traverse_filter_branches sampleTree {"email"}) := by
  have hd : branchDepth sampleTree ≤ 3 := by
    simp [sampleTree, branchDepth, branchListDepth]
  exact ⟨hd, c4_traversal_terminates_amended {"email"} sampleTree 3 hd⟩

/-- A filter-branch node in reference form: Python dicts are heap objects,
so the `filterBranches` entries are references into a store of nodes; this
representation admits the self-referential documents the claim is about,
which the inductive `FilterBranch` cannot express. -/
structure GraphNode where
  filters : List LeafFilter
  childRefs : List Nat
deriving DecidableEq, Repr

mutual

/-- The traversal on the reference representation, with `fuel`
bounding the call-stack depth exactly as in `traverseFuel`.  `none` means
the recursion exceeded `fuel` nested calls — the code has no depth bound of
its own, so a result of `none` at every fuel is unbounded recursion (in
CPython, a `RecursionError` crash), never an ERROR row. -/
def gTraverse (store : List GraphNode) (props : Finset String)
    (fuel : Nat) (ref : Nat) : Option (Finset String) :=
  match fuel with
  | 0 => none
  | fuel + 1 =>
      match store[ref]? with
      | none => some ∅
      | some nd =>
          (gTraverseRefs store props fuel nd.childRefs).map
            fun s => leafMatches nd.filters props ∪ s
termination_by (fuel, 0)

/-- The sibling loop of `gTraverse`. -/
def gTraverseRefs (store : List GraphNode) (props : Finset String)
    (fuel : Nat) (refs : List Nat) : Option (Finset String) :=
  match refs with
  | [] => some ∅
  | r :: rest =>
      match gTraverse store props fuel r, gTraverseRefs store props fuel rest with
      | some s1, some s2 => some (s1 ∪ s2)
      | _, _ => none
termination_by (fuel, refs.length + 1)

end

/-- A self-referential document: one branch node whose `filterBranches`
list contains the node itself. -/
def cycStore : List GraphNode := [⟨[], [0]⟩]

theorem gTraverse_cycStore (fuel : Nat) :
    gTraverse cycStore ∅ fuel 0 = none := by
  induction fuel with
  | zero => rw [gTraverse]
  | succ n ih =>
      rw [gTraverse]
      have h0 : cycStore[0]? = some ⟨[], [0]⟩ := rfl
      rw [h0]
      simp [gTraverseRefs, ih]

/-- C4 counterexample: on the self-referential document `cycStore` the
traversal exceeds every stack budget — the implementation neither bounds
recursion depth nor detects revisited nodes, so a cyclic document recurses
without bound (crashing) instead of surfacing an ERROR outcome. -/
theorem c4_counterexample :
    ¬ ∃ (fuel : Nat) (s : Finset String),
      gTraverse cycStore ∅ fuel 0 = some s := by
  rintro ⟨fuel, s, h⟩
  rw [gTraverse_cycStore fuel] at h
  cases h

end ListCheck
